import Mathlib

/-!
Verification of the Prisma-AppSync core: the query normalizer (argument and
selection canonicalization, path generation) and the path-based authorization
engine (`getAuthorization` in `_shield.ts`), together with the guard phase of
`PrismaAppSync.resolve` (depth guard, shield authorization, prisma-filter
injection).  JavaScript values are embedded as a JSON-like tree `JsVal`;
the external collaborators (lodash `merge`, `micromatch.isMatch`) are
modelled as executable Lean functions.
-/

namespace PrismaAppSync

/-- JSON-like JavaScript value: the opaque `where` / `data` / filter trees the
core passes around.  Object entries are an ordered association list, mirroring
JavaScript insertion order. -/
inductive JsVal where
  | str (s : String)
  | num (n : Int)
  | bool (b : Bool)
  | arr (items : List JsVal)
  | obj (entries : List (String × JsVal))

/-- JavaScript property lookup `o[k]` on an object's entry list. -/
def objLookup (k : String) : List (String × JsVal) → Option JsVal
  | [] => none
  | (k', v) :: rest => if k' = k then some v else objLookup k rest

/-- JavaScript property assignment `o[k] = v`: replaces the existing entry in
place, otherwise appends a new entry. -/
def objAssign (k : String) (v : JsVal) : List (String × JsVal) → List (String × JsVal)
  | [] => [(k, v)]
  | (k', v') :: rest => if k' = k then (k, v) :: rest else (k', v') :: objAssign k v rest

mutual

/-- lodash `merge(dest, src)`, the deep-merge used by `getAuthorization` for
filter accumulation: when both sides are objects the keys are combined
recursively, otherwise the source value replaces the destination value. -/
def jsMerge : JsVal → JsVal → JsVal
  | .obj des, .obj ses => .obj (jsMergeEntries des ses)
  | _, t2 => t2
termination_by _ t2 => sizeOf t2

/-- Merge the source entries (second argument) one by one into the destination
entries, recursing through `jsMerge` on keys present on both sides. -/
def jsMergeEntries (des : List (String × JsVal)) : List (String × JsVal) → List (String × JsVal)
  | [] => des
  | (k, sv) :: rest =>
      jsMergeEntries
        (objAssign k
          (match objLookup k des with
           | some dv => jsMerge dv sv
           | none => sv) des) rest
termination_by l => sizeOf l

end

/-- Modelled from the spec: the external `micromatch.isMatch` glob matcher used
by `getAuthorization`, for patterns built from literal characters, `*` (a run
of characters not containing the `/` separator) and `**` (an arbitrary run of
characters).  The `fuel` argument only drives the recursion; every recursive
call shrinks `pattern.length + s.length`, so `fuel` larger than that sum makes
the function total on the intended inputs. -/
def globMatchAux : Nat → List Char → List Char → Bool
  | 0, _, _ => false
  | _ + 1, [], s => s.isEmpty
  | fuel + 1, '*' :: '*' :: ps, s =>
      globMatchAux fuel ps s ||
        (match s with
         | [] => false
         | _ :: s' => globMatchAux fuel ('*' :: '*' :: ps) s')
  | fuel + 1, '*' :: ps, s =>
      globMatchAux fuel ps s ||
        (match s with
         | [] => false
         | c :: s' => if c = '/' then false else globMatchAux fuel ('*' :: ps) s')
  | fuel + 1, p :: ps, s =>
      match s with
      | [] => false
      | c :: s' => p = c && globMatchAux fuel ps s'

/-- `micromatch.isMatch(path, globPattern)` as called by `getAuthorization`. -/
def micromatchIsMatch (path globPattern : String) : Bool :=
  globMatchAux (globPattern.length + path.length + 1) globPattern.toList path.toList

/-- The `rule` field of a structured shield rule: a boolean, or a Prisma filter
tree (always an object in the shield contract). -/
inductive RuleValue where
  | bool (b : Bool)
  | filt (entries : List (String × JsVal))

/-- One shield entry value: a plain boolean, or `{ rule, reason? }`. -/
inductive ShieldRule where
  | plain (b : Bool)
  | rule (r : RuleValue) (reason : Option String)

/-- A shield: glob patterns mapped to rules, in insertion order. -/
abbrev Shield := List (String × ShieldRule)

/-- The decision produced by `getAuthorization` in `_shield.ts`. -/
structure Authorization where
  canAccess : Bool
  reason : Option String
  prismaFilter : Option JsVal
  matcher : Option String

/-- The initial decision of `getAuthorization`: default allow. -/
def defaultAuthorization : Authorization :=
  { canAccess := true, reason := none, prismaFilter := none, matcher := none }

/-- The body of the `if (micromatch.isMatch(path, globPattern))` block of
`getAuthorization`: apply one matching shield rule to the accumulated decision.
`merge({}, authorization.prismaFilter, shieldRule.rule)` is embedded as a
`jsMerge` of the accumulated filter (or `{}` when still null) with the rule's
filter tree, which is value-equal because the accumulated filter is always an
object. -/
def applyShieldRule (auth : Authorization) (globPattern : String) (shieldRule : ShieldRule) :
    Authorization :=
  let auth1 :=
    match shieldRule with
    | .plain b => { auth with canAccess := b }
    | .rule (.bool b) _ => { auth with canAccess := b }
    | .rule (.filt es) _ =>
        { auth with
            canAccess := true
            prismaFilter := some (jsMerge (auth.prismaFilter.getD (.obj [])) (.obj es)) }
  { auth1 with
      matcher := some globPattern
      reason :=
        match shieldRule with
        | .plain _ => some ("Matcher: " ++ globPattern)
        | .rule _ (some r) => some r
        | .rule _ none => some ("Matcher: " ++ globPattern) }

/-- The inner loop of `getAuthorization`: one path checked against every shield
entry in insertion order. -/
def scanPath (shield : Shield) (auth : Authorization) (path : String) : Authorization :=
  shield.foldl
    (fun a entry =>
      if micromatchIsMatch path entry.1 then applyShieldRule a entry.1 entry.2 else a)
    auth

/-- `getAuthorization` from `_shield.ts`: scan the paths in reverse order
(`for (let i = paths.length - 1; i >= 0; i--)`), and for each path the shield
entries in insertion order, starting from the default-allow decision. -/
def getAuthorization (shield : Shield) (paths : List String) : Authorization :=
  paths.reverse.foldl (scanPath shield) defaultAuthorization

/-- All `(pattern, rule)` matches encountered by `getAuthorization`, in scan
order: paths in reverse list order, and for each path the matching shield
entries in insertion order. -/
def matchList (shield : Shield) (paths : List String) : List (String × ShieldRule) :=
  paths.reverse.flatMap fun path => shield.filter fun entry => micromatchIsMatch path entry.1

/-- Replay a list of matches against an accumulated decision. -/
def foldMatches (auth : Authorization) (ms : List (String × ShieldRule)) : Authorization :=
  ms.foldl (fun a m => applyShieldRule a m.1 m.2) auth

/-- The `canAccess` value written by one matching rule. -/
def ruleAccess : ShieldRule → Bool
  | .plain b => b
  | .rule (.bool b) _ => b
  | .rule (.filt _) _ => true

/-- The `reason` string written by one matching rule under pattern
`globPattern`. -/
def ruleReason (globPattern : String) : ShieldRule → String
  | .plain _ => "Matcher: " ++ globPattern
  | .rule _ (some r) => r
  | .rule _ none => "Matcher: " ++ globPattern

/-- The filter trees of the structured non-boolean rules in a match list, in
scan order. -/
def filtersOf (ms : List (String × ShieldRule)) : List (List (String × JsVal)) :=
  ms.filterMap fun m =>
    match m.2 with
    | .rule (.filt es) _ => some es
    | _ => none

/-- The filter trees of every matching non-boolean rule encountered during the
whole scan of `getAuthorization`, in scan order. -/
def matchedFilters (shield : Shield) (paths : List String) : List (List (String × JsVal)) :=
  filtersOf (matchList shield paths)

theorem foldMatches_append (auth : Authorization) (l1 l2 : List (String × ShieldRule)) :
    foldMatches auth (l1 ++ l2) = foldMatches (foldMatches auth l1) l2 := by
  simp [foldMatches, List.foldl_append]

theorem scanPath_eq_foldMatches (shield : Shield) (auth : Authorization) (path : String) :
    scanPath shield auth path =
      foldMatches auth (shield.filter fun entry => micromatchIsMatch path entry.1) := by
  induction shield generalizing auth with
  | nil => rfl
  | cons e es ih =>
    simp only [scanPath, List.foldl_cons, List.filter_cons]
    by_cases h : micromatchIsMatch path e.1
    · simp only [h, if_true, reduceIte]
      rw [show es.foldl _ (applyShieldRule auth e.1 e.2) = scanPath es (applyShieldRule auth e.1 e.2) path from rfl]
      rw [ih]
      rfl
    · simp only [h, if_false, Bool.false_eq_true, reduceIte]
      rw [show es.foldl _ auth = scanPath es auth path from rfl]
      exact ih auth

theorem foldl_scanPath_eq (shield : Shield) (r : List String) (auth : Authorization) :
    r.foldl (scanPath shield) auth =
      foldMatches auth (r.flatMap fun path => shield.filter fun entry => micromatchIsMatch path entry.1) := by
  induction r generalizing auth with
  | nil => rfl
  | cons p rest ih =>
    simp only [List.foldl_cons, List.flatMap_cons]
    rw [foldMatches_append, ← scanPath_eq_foldMatches]
    exact ih _

theorem getAuthorization_eq_foldMatches (shield : Shield) (paths : List String) :
    getAuthorization shield paths = foldMatches defaultAuthorization (matchList shield paths) := by
  rw [getAuthorization, matchList]
  exact foldl_scanPath_eq shield paths.reverse defaultAuthorization

theorem applyShieldRule_fields (auth : Authorization) (g : String) (r : ShieldRule) :
    (applyShieldRule auth g r).canAccess = ruleAccess r ∧
    (applyShieldRule auth g r).matcher = some g ∧
    (applyShieldRule auth g r).reason = some (ruleReason g r) := by
  cases r with
  | plain b => simp [applyShieldRule, ruleAccess, ruleReason]
  | rule rv reason => cases rv <;> cases reason <;> simp [applyShieldRule, ruleAccess, ruleReason]

theorem exists_concat_of_getLast?_eq {α : Type} {l : List α} {m : α}
    (h : l.getLast? = some m) : ∃ l', l = l' ++ [m] := by
  cases l with
  | nil => simp at h
  | cons a as =>
    have hne : (a :: as) ≠ ([] : List α) := by simp
    refine ⟨(a :: as).dropLast, ?_⟩
    have h2 := List.dropLast_append_getLast hne
    rw [List.getLast?_eq_getLast _ hne] at h
    rw [Option.some.injEq] at h
    rw [h] at h2
    exact h2.symm

/-- C1: the authorization engine scans paths in reverse order and, within each
path, shield entries in insertion order; the final `canAccess`, `reason` and
`matcher` (lastMatcher) of the decision are exactly those written by the last
match of that scan (`matchList` lists the matches in scan order, so a match
against the path listed first in the original path list overrides matches
against later-listed paths, and within one path a later shield entry overrides
an earlier one). -/
theorem getAuthorization_last_match_wins (shield : Shield) (paths : List String)
    (m : String × ShieldRule) (h : (matchList shield paths).getLast? = some m) :
    (getAuthorization shield paths).canAccess = ruleAccess m.2 ∧
    (getAuthorization shield paths).matcher = some m.1 ∧
    (getAuthorization shield paths).reason = some (ruleReason m.1 m.2) := by
  rw [getAuthorization_eq_foldMatches]
  obtain ⟨l', hl⟩ := exists_concat_of_getLast?_eq h
  rw [hl, foldMatches_append]
  show (applyShieldRule (foldMatches defaultAuthorization l') m.1 m.2).canAccess = _ ∧ _
  exact applyShieldRule_fields _ m.1 m.2

/-- Witness for C1 at the spec's own example: paths
`["/get/post/title", "/get/post/body"]` and shield
`{"/get/post/body": false, "/get/post/*": true}`; the last match of the scan is
the `/get/post/*` entry against `/get/post/title` (the first-listed path), so
the decision allows access even though `/get/post/body` is denied. -/
theorem getAuthorization_last_match_wins_witness :
    (matchList [("/get/post/body", ShieldRule.plain false), ("/get/post/*", ShieldRule.plain true)]
        ["/get/post/title", "/get/post/body"]).getLast? =
      some ("/get/post/*", ShieldRule.plain true) ∧
    (getAuthorization [("/get/post/body", ShieldRule.plain false), ("/get/post/*", ShieldRule.plain true)]
        ["/get/post/title", "/get/post/body"]).canAccess = ruleAccess (ShieldRule.plain true) ∧
    (getAuthorization [("/get/post/body", ShieldRule.plain false), ("/get/post/*", ShieldRule.plain true)]
        ["/get/post/title", "/get/post/body"]).matcher = some "/get/post/*" ∧
    (getAuthorization [("/get/post/body", ShieldRule.plain false), ("/get/post/*", ShieldRule.plain true)]
        ["/get/post/title", "/get/post/body"]).reason =
      some (ruleReason "/get/post/*" (ShieldRule.plain true)) :=
  ⟨rfl, getAuthorization_last_match_wins _ _ ("/get/post/*", ShieldRule.plain true) rfl⟩

/-- C8: when no shield pattern matches any path (in particular for an empty
shield or an empty path list), `getAuthorization` returns the default-allow
decision `{canAccess: true, reason: null, filter: null, lastMatcher: null}`. -/
theorem getAuthorization_no_match_default (shield : Shield) (paths : List String)
    (h : ∀ path ∈ paths, ∀ entry ∈ shield, micromatchIsMatch path entry.1 = false) :
    getAuthorization shield paths = defaultAuthorization := by
  rw [getAuthorization_eq_foldMatches]
  have hm : matchList shield paths = [] := by
    rw [matchList]
    rw [List.flatMap_eq_nil_iff]
    intro path hp
    rw [List.filter_eq_nil_iff]
    intro entry he
    have := h path (List.mem_reverse.mp hp) entry he
    simp [this]
  rw [hm]
  rfl

/-- Witness for C8: a shield whose single pattern matches no generated path,
and separately the empty shield and the empty path list. -/
theorem getAuthorization_no_match_default_witness :
    (∀ path ∈ ["/get/post/title"],
        ∀ entry ∈ ([("/update/post/**", ShieldRule.plain false)] : Shield),
          micromatchIsMatch path entry.1 = false) ∧
    getAuthorization [("/update/post/**", ShieldRule.plain false)] ["/get/post/title"] =
      defaultAuthorization :=
  ⟨by decide, getAuthorization_no_match_default _ _ (by decide)⟩

theorem foldMatches_prismaFilter (ms : List (String × ShieldRule)) (auth : Authorization) :
    (foldMatches auth ms).prismaFilter =
      (filtersOf ms).foldl (fun o es => some (jsMerge (o.getD (.obj [])) (.obj es)))
        auth.prismaFilter := by
  induction ms generalizing auth with
  | nil => rfl
  | cons m rest ih =>
    obtain ⟨g, r⟩ := m
    have hstep : foldMatches auth ((g, r) :: rest) = foldMatches (applyShieldRule auth g r) rest := rfl
    rw [hstep]
    cases r with
    | plain b =>
      rw [ih]
      have h1 : (applyShieldRule auth g (ShieldRule.plain b)).prismaFilter = auth.prismaFilter := by
        simp [applyShieldRule]
      rw [h1]
      rfl
    | rule rv reason =>
      cases rv with
      | bool b =>
        rw [ih]
        have h1 : (applyShieldRule auth g (ShieldRule.rule (RuleValue.bool b) reason)).prismaFilter =
            auth.prismaFilter := by
          simp [applyShieldRule]
        rw [h1]
        rfl
      | filt es =>
        rw [ih]
        have h1 : (applyShieldRule auth g (ShieldRule.rule (RuleValue.filt es) reason)).prismaFilter =
            some (jsMerge (auth.prismaFilter.getD (.obj [])) (.obj es)) := by
          simp [applyShieldRule]
        rw [h1]
        rfl

theorem foldl_mergeStep_some (l : List (List (String × JsVal))) (t : JsVal) :
    l.foldl (fun o es => some (jsMerge (o.getD (.obj [])) (.obj es))) (some t) =
      some (l.foldl (fun acc es => jsMerge acc (.obj es)) t) := by
  induction l generalizing t with
  | nil => rfl
  | cons es rest ih => simp only [List.foldl_cons, Option.getD_some]; exact ih _

/-- Helper shared by C2 and C10: the final `prismaFilter` is `null` when no
matching structured rule carried a filter tree, and otherwise the left-to-right
lodash deep-merge (seeded from `{}`) of every such filter tree in scan order. -/
theorem getAuthorization_prismaFilter_spec (shield : Shield) (paths : List String) :
    (getAuthorization shield paths).prismaFilter =
      match matchedFilters shield paths with
      | [] => none
      | es :: rest =>
          some (rest.foldl (fun acc es2 => jsMerge acc (.obj es2)) (jsMerge (.obj []) (.obj es))) := by
  rw [getAuthorization_eq_foldMatches, foldMatches_prismaFilter]
  show (filtersOf (matchList shield paths)).foldl _ none = _
  rw [show filtersOf (matchList shield paths) = matchedFilters shield paths from rfl]
  cases matchedFilters shield paths with
  | nil => rfl
  | cons es rest =>
    rw [List.foldl_cons]
    show rest.foldl _ (some (jsMerge (Option.getD none (.obj [])) (.obj es))) = _
    rw [show Option.getD none (JsVal.obj []) = JsVal.obj [] from rfl]
    exact foldl_mergeStep_some rest _

/-- C2: whenever a matching rule has a non-boolean `rule` field, the engine
forces `canAccess = true` at that moment and deep-merges that filter tree into
the accumulated filter; the final filter is the cumulative deep-merge of the
filter trees of every matching non-boolean rule in scan order (never reset),
even when the final `canAccess` comes from a different boolean rule. -/
theorem getAuthorization_filter_accumulates (shield : Shield) (paths : List String) :
    (getAuthorization shield paths).prismaFilter =
      (match matchedFilters shield paths with
       | [] => none
       | es :: rest =>
           some (rest.foldl (fun acc es2 => jsMerge acc (.obj es2)) (jsMerge (.obj []) (.obj es)))) ∧
    ∀ g es reason auth,
      (applyShieldRule auth g (ShieldRule.rule (RuleValue.filt es) reason)).canAccess = true ∧
      (applyShieldRule auth g (ShieldRule.rule (RuleValue.filt es) reason)).prismaFilter =
        some (jsMerge (auth.prismaFilter.getD (.obj [])) (.obj es)) := by
  refine ⟨getAuthorization_prismaFilter_spec shield paths, ?_⟩
  intro g es reason auth
  constructor <;> simp [applyShieldRule]

/-- C10: the decision's filter is non-null iff at least one matching rule in
the scan had a non-boolean `rule` field; this is independent of the final
`canAccess`, so a denied decision can still carry a non-null filter (second
conjunct exhibits one). -/
theorem getAuthorization_filter_iff_filter_rule_matched (shield : Shield) (paths : List String) :
    ((getAuthorization shield paths).prismaFilter ≠ none ↔ matchedFilters shield paths ≠ []) ∧
    ∃ shield2 paths2,
      (getAuthorization shield2 paths2).canAccess = false ∧
      (getAuthorization shield2 paths2).prismaFilter ≠ none := by
  constructor
  · rw [getAuthorization_prismaFilter_spec shield paths]
    cases matchedFilters shield paths with
    | nil => simp
    | cons es rest => simp
  · refine ⟨[("/get/post/*", ShieldRule.rule (RuleValue.filt [("status", JsVal.str "PUBLISHED")]) none),
             ("/get/post/title", ShieldRule.plain false)], ["/get/post/title"], rfl, ?_⟩
    intro hcon
    exact Option.noConfusion hcon

/-- Error categories of the `CustomError` values thrown by `resolve`. -/
inductive ErrorType where
  | FORBIDDEN
  | INTERNAL_SERVER_ERROR
  deriving DecidableEq

/-- `CustomError` as thrown by `PrismaAppSync.resolve`. -/
structure CustomError where
  message : String
  type : ErrorType

/-- Character-level split of a slash-joined path into its segments (the
behavior of `"a/b/c".split('/')`), used by the depth computation and the
selection-set parsing. -/
def splitSegsAux (cur : List Char) : List Char → List (List Char)
  | [] => [cur.reverse]
  | c :: rest =>
      if c = '/' then cur.reverse :: splitSegsAux [] rest else splitSegsAux (c :: cur) rest

/-- Split a slash-joined path string into its segments. -/
def splitSlash (s : String) : List String :=
  (splitSegsAux [] s.toList).map fun cs => String.mk cs

/-- Modelled from the spec: `getDepth` lives in `guard.ts`, which is not among
the source files (only its caller `resolve` is); §4.4 fixes the depth as the
maximum number of path segments below the `/<action>/<model>/` prefix over the
generated paths. -/
def getDepth (paths : List String) : Nat :=
  paths.foldl
    (fun acc path => max acc (((splitSlash path).filter (fun seg => seg ≠ "")).length - 2)) 0

/-- JavaScript truth value of `params.args.where.length > 0` as evaluated by
the prisma-filter middleware installed by `resolve`: a plain object `where`
has no `length` property, so for objects the test only holds when the object
itself carries a numeric (or numeric-string) `length` entry; arrays and
strings use their actual length. -/
def jsLengthGtZero : JsVal → Bool
  | .obj es =>
      match objLookup "length" es with
      | some (.num n) => 0 < n
      | some (.str s) => 0 < s.toInt?.getD 0
      | _ => false
  | .str s => 0 < s.length
  | .arr items => 0 < items.length
  | _ => false

/-- The guard phase of `PrismaAppSync.resolve` (`client/index.ts`): the depth
guard, the shield authorization, the rejection of denied calls, and the
prisma-filter middleware that rewrites `params.args.where`.  The returned
value is the `where` argument the query execution actually receives, and an
error models the thrown `CustomError`. -/
def resolveGuard (maxDepth : Nat) (shield : Shield) (paths : List String)
    (whereArg : Option JsVal) : Except CustomError (Option JsVal) :=
  let depth := getDepth paths
  if maxDepth < depth then
    .error { message := "Query has depth of " ++ toString depth ++
               ", which exceeds max depth of " ++ toString maxDepth ++ "."
             type := .FORBIDDEN }
  else
    let shieldAuth := getAuthorization shield paths
    if shieldAuth.canAccess = false then
      .error { message := shieldAuth.reason.getD "", type := .FORBIDDEN }
    else
      match shieldAuth.prismaFilter with
      | none => .ok whereArg
      | some prismaFilter =>
          match whereArg with
          | some w =>
              if jsLengthGtZero w then
                .ok (some (.obj [("AND", .arr [w, prismaFilter])]))
              else
                .ok (some prismaFilter)
          | none => .ok (some prismaFilter)

/-- C4: a call whose computed depth exceeds the configured maximum (default 3)
fails with a FORBIDDEN (forbidden-class) error, and the rejection happens
before the authorization engine runs: the outcome is identical for every
shield, so no shield rule is consulted and no authorization decision is
produced for such a call. -/
theorem resolve_depth_guard_before_shield (maxDepth : Nat) (shield : Shield)
    (paths : List String) (whereArg : Option JsVal)
    (h : maxDepth < getDepth paths) :
    resolveGuard maxDepth shield paths whereArg =
      .error { message := "Query has depth of " ++ toString (getDepth paths) ++
                 ", which exceeds max depth of " ++ toString maxDepth ++ "."
               type := .FORBIDDEN } ∧
    ∀ shield2 : Shield,
      resolveGuard maxDepth shield2 paths whereArg =
        resolveGuard maxDepth shield paths whereArg := by
  constructor
  · rw [resolveGuard]
    simp only [if_pos h]
  · intro shield2
    rw [resolveGuard, resolveGuard]
    simp only [if_pos h]

/-- Witness for C4: a single path five segments deep against the default
maximum of 3, with an arbitrary non-empty shield on one side. -/
theorem resolve_depth_guard_before_shield_witness :
    3 < getDepth ["/get/post/comment/author/badges/owners/email"] ∧
    resolveGuard 3 [] ["/get/post/comment/author/badges/owners/email"] none =
      .error { message := "Query has depth of " ++
                 toString (getDepth ["/get/post/comment/author/badges/owners/email"]) ++
                 ", which exceeds max depth of " ++ toString 3 ++ "."
               type := .FORBIDDEN } ∧
    resolveGuard 3 [("**", ShieldRule.plain false)] ["/get/post/comment/author/badges/owners/email"] none =
      resolveGuard 3 [] ["/get/post/comment/author/badges/owners/email"] none :=
  ⟨by decide,
   (resolve_depth_guard_before_shield 3 [] _ none (by decide)).1,
   (resolve_depth_guard_before_shield 3 [] _ none (by decide)).2 _⟩

/-- C3 (code evaluation): at a call whose arguments already carry the plain
object filter `where = {title: {startsWith: "Hello"}}` and whose shield
contributes the filter `{status: "PUBLISHED"}`, `resolve` replaces the
caller's `where` with the authorization filter instead of AND-combining them:
a plain object has no `length` property, so the middleware's
`params.args.where.length > 0` test is false and the else-branch
`params.args.where = shieldAuth.prismaFilter` runs, discarding the caller's
filter. -/
theorem resolve_where_replaced_not_anded :
    resolveGuard 3
        [("/get/post/*", ShieldRule.rule (RuleValue.filt [("status", JsVal.str "PUBLISHED")]) none)]
        ["/get/post/title"]
        (some (.obj [("title", .obj [("startsWith", .str "Hello")])])) =
      .ok (some (.obj [("status", JsVal.str "PUBLISHED")])) ∧
    JsVal.obj [("status", JsVal.str "PUBLISHED")] ≠
      JsVal.obj [("AND", .arr [.obj [("title", .obj [("startsWith", .str "Hello")])],
        .obj [("status", JsVal.str "PUBLISHED")]])] := by
  constructor
  · have h1 : resolveGuard 3
        [("/get/post/*", ShieldRule.rule (RuleValue.filt [("status", JsVal.str "PUBLISHED")]) none)]
        ["/get/post/title"]
        (some (.obj [("title", .obj [("startsWith", .str "Hello")])])) =
        .ok (some (jsMerge (.obj []) (.obj [("status", JsVal.str "PUBLISHED")]))) := rfl
    rw [h1]
    have h2 : jsMerge (.obj []) (.obj [("status", JsVal.str "PUBLISHED")]) =
        .obj [("status", JsVal.str "PUBLISHED")] := by
      simp [jsMerge, jsMergeEntries, objAssign, objLookup]
    rw [h2]
  · simp

/-- A canonical `select` tree as produced by the argument normalizer: a field
is either a scalar leaf (`true` in the Prisma syntax) or a nested
`{ select: {...} }` sub-tree. -/
inductive SelectTree where
  | leaf
  | nested (entries : List (String × SelectTree))

/-- Total number of segments in a list of segment paths. -/
def sumLen (ps : List (List String)) : Nat := (ps.map List.length).sum

/-- The entries of `ps` that descend below first-level key `k`: the tails of
the paths that start with `k` and continue past it. -/
def childrenOf (k : String) (ps : List (List String)) : List (List String) :=
  ps.filterMap fun p =>
    match p with
    | [] => none
    | k' :: rest => if k' = k ∧ rest ≠ [] then some rest else none

/-- First-level keys in order of first appearance; `seen` accumulates the keys
already emitted. -/
def dedupFirstAux (seen : List String) : List String → List String
  | [] => []
  | k :: rest => if k ∈ seen then dedupFirstAux seen rest else k :: dedupFirstAux (k :: seen) rest

theorem sumLen_childrenOf (k : String) (ps : List (List String)) :
    (childrenOf k ps).length + sumLen (childrenOf k ps) ≤ sumLen ps := by
  induction ps with
  | nil => simp [childrenOf, sumLen]
  | cons p rest ih =>
    simp only [childrenOf, List.filterMap_cons] at *
    cases p with
    | nil =>
      simp only [sumLen, List.map_cons, List.sum_cons] at *
      omega
    | cons k' rest' =>
      by_cases h : k' = k ∧ rest' ≠ []
      · simp only [if_pos h, List.length_cons, sumLen, List.map_cons, List.sum_cons] at *
        omega
      · simp only [if_neg h, sumLen, List.map_cons, List.sum_cons] at *
        omega

/-- Modelled from the spec: the selection-set parsing of `getArgs`/`getFields`
(`adapter.ts` itself is not among the source files; only its unit tests and
type declarations are).  A field is included iff it is a first-level segment
of some entry, and the entries extending it become a nested `select` sub-tree,
recursively (§4.2).  The `fuel` argument only drives the recursion: every
recursive call strictly decreases the total segment count of the path list,
so any fuel above `sumLen ps` computes the full tree. -/
def buildSelectF : Nat → List (List String) → List (String × SelectTree)
  | 0, _ => []
  | fuel + 1, ps =>
      (dedupFirstAux [] (ps.filterMap List.head?)).map fun k =>
        match childrenOf k ps with
        | [] => (k, SelectTree.leaf)
        | c :: cs => (k, SelectTree.nested (buildSelectF fuel (c :: cs)))

/-- The select tree of a list of segment paths. -/
def buildSelect (ps : List (List String)) : List (String × SelectTree) :=
  buildSelectF (sumLen ps + 1) ps

/-- Modelled from the spec: the requested-fields list with the `__typename`
sentinel discarded before use, each remaining entry split into its segments. -/
def cleanFields (fields : List String) : List (List String) :=
  (fields.filter fun f => f ≠ "__typename").map splitSlash

/-- Flatten a select tree back to the list of its leaf paths. -/
def flattenEntries : List (String × SelectTree) → List (List String)
  | [] => []
  | (k, .leaf) :: rest => [k] :: flattenEntries rest
  | (k, .nested es) :: rest => (flattenEntries es).map (fun p => k :: p) ++ flattenEntries rest

/-- Modelled from the spec: the read-path family of `getPaths` — one path per
leaf of the select tree, appending the select keys to the
`/<action>/<model>` prefix (§4.3). -/
def selectEntriesPaths (pre : String) : List (String × SelectTree) → List String
  | [] => []
  | (k, .leaf) :: rest => (pre ++ "/" ++ k) :: selectEntriesPaths pre rest
  | (k, .nested es) :: rest =>
      selectEntriesPaths (pre ++ "/" ++ k) es ++ selectEntriesPaths pre rest

/-- Modelled from the spec: the write-paths of one data-payload field — a
scalar field contributes `/<action>/<model>/<field>`, and a relation-connect
sub-object contributes `/<action>/<model>/<relationField>/<connectKeyField>`
for each key identifying the connected record (§4.3). -/
def writeFieldPaths (action model field : String) : JsVal → List String
  | .obj sub =>
      match objLookup "connect" sub with
      | some (.obj ck) =>
          ck.map fun c => "/" ++ action ++ "/" ++ model ++ "/" ++ field ++ "/" ++ c.1
      | _ => ["/" ++ action ++ "/" ++ model ++ "/" ++ field]
  | _ => ["/" ++ action ++ "/" ++ model ++ "/" ++ field]

/-- Modelled from the spec: the write-path family of `getPaths`, walking the
data payload — a single object for single-record writes, an array of objects
for batch writes (§4.3, §6). -/
def writePaths (action model : String) : JsVal → List String
  | .obj es => es.flatMap fun e => writeFieldPaths action model e.1 e.2
  | .arr items =>
      items.flatMap fun d =>
        match d with
        | .obj es => es.flatMap fun e => writeFieldPaths action model e.1 e.2
        | _ => []
  | _ => []

/-- Lowercase an ASCII letter (model of JavaScript `toLowerCase` on the
action and model names appearing in paths). -/
def lowerChar (c : Char) : Char :=
  if 'A' ≤ c ∧ c ≤ 'Z' then Char.ofNat (c.toNat + 32) else c

/-- Lowercase a string character by character. -/
def toLowerStr (s : String) : String := String.mk (s.toList.map lowerChar)

/-- The write (mutating) actions of the fixed action vocabulary. -/
def isWriteAction (action : String) : Bool :=
  action == "create" || action == "createMany" || action == "update" ||
    action == "updateMany" || action == "upsert" || action == "delete" ||
    action == "deleteMany"

/-- The bulk mutations, whose returned result is list-shaped. -/
def isBatchAction (action : String) : Bool :=
  action == "createMany" || action == "updateMany" || action == "deleteMany"

/-- The result-shape read action of a mutation: the plural/list read action
for a bulk mutation, the singular read action otherwise. -/
def readActionOf (action : String) : String :=
  if isBatchAction action then "list" else "get"

/-- Modelled from the spec: `getPaths` — for write actions the write-paths of
the data payload followed by the read-paths of the returned shape, read under
the result-shape read action; for read actions just the read-paths (§4.3).
Action and model names are lowercased inside paths, as the unit tests show
(`/createmany/post/...`). -/
def getPaths (action model : String) (data : Option JsVal)
    (select : List (String × SelectTree)) : List String :=
  if isWriteAction action then
    writePaths (toLowerStr action) (toLowerStr model) (data.getD (.obj [])) ++
      selectEntriesPaths ("/" ++ readActionOf action ++ "/" ++ toLowerStr model) select
  else
    selectEntriesPaths ("/" ++ toLowerStr action ++ "/" ++ toLowerStr model) select

/-- The selection-set list of the `getPaths` unit tests in `adapter.spec.ts`. -/
def specSelectionSetList : List String :=
  ["__typename", "title", "comment", "comment/content", "comment/author",
   "comment/author/email", "comment/author/username", "comment/author/badges",
   "comment/author/badges/label", "comment/author/badges/owners",
   "comment/author/badges/owners/email"]

/-- The data payload of the nested-update unit test in `adapter.spec.ts`. -/
def specUpdateData : JsVal :=
  .obj [("title", .str "New title"),
        ("author", .obj [("connect", .obj [("username", .str "other user")])])]

/-- The data payload of the nested-createMany unit test in `adapter.spec.ts`. -/
def specCreateManyData : JsVal :=
  .arr [.obj [("title", .str "New title"),
              ("author", .obj [("connect", .obj [("username", .str "johndoe")])])]]

/-- C5: for every write action the generated path list is the write-paths of
the data payload followed by the read-paths of the select tree (write-paths
always precede read-paths), where the read-paths use the singular read action
`get` for a single-record mutation and the list read action `list` for a bulk
mutation; a connect sub-object contributes
`/<action>/<model>/<relationField>/<connectKeyField>`.  The final two
conjuncts check the model against the repository's `adapter.spec.ts` vectors
for nested `update` and nested `createMany`. -/
theorem getPaths_write_then_read (action model : String) (data : Option JsVal)
    (select : List (String × SelectTree)) (a m field : String) (ck : List (String × JsVal))
    (h : isWriteAction action = true) :
    getPaths action model data select =
      writePaths (toLowerStr action) (toLowerStr model) (data.getD (.obj [])) ++
        selectEntriesPaths
          ("/" ++ (if isBatchAction action then "list" else "get") ++ "/" ++ toLowerStr model)
          select ∧
    writeFieldPaths a m field (.obj [("connect", .obj ck)]) =
      ck.map (fun c => "/" ++ a ++ "/" ++ m ++ "/" ++ field ++ "/" ++ c.1) ∧
    getPaths "update" "Post" (some specUpdateData) (buildSelect (cleanFields specSelectionSetList)) =
      ["/update/post/title", "/update/post/author/username",
       "/get/post/title", "/get/post/comment/content", "/get/post/comment/author/email",
       "/get/post/comment/author/username", "/get/post/comment/author/badges/label",
       "/get/post/comment/author/badges/owners/email"] ∧
    getPaths "createMany" "Post" (some specCreateManyData)
        (buildSelect (cleanFields specSelectionSetList)) =
      ["/createmany/post/title", "/createmany/post/author/username",
       "/list/post/title", "/list/post/comment/content", "/list/post/comment/author/email",
       "/list/post/comment/author/username", "/list/post/comment/author/badges/label",
       "/list/post/comment/author/badges/owners/email"] := by
  refine ⟨?_, ?_, ?_, ?_⟩
  · rw [getPaths, readActionOf]
    simp [h]
  · simp [writeFieldPaths, objLookup]
  · have hsel : buildSelect (cleanFields specSelectionSetList) =
        [("title", SelectTree.leaf),
         ("comment", SelectTree.nested
           [("content", SelectTree.leaf),
            ("author", SelectTree.nested
              [("email", SelectTree.leaf), ("username", SelectTree.leaf),
               ("badges", SelectTree.nested
                 [("label", SelectTree.leaf),
                  ("owners", SelectTree.nested [("email", SelectTree.leaf)])])])])] := rfl
    rw [hsel]
    have h3 : getPaths "update" "Post" (some specUpdateData)
        [("title", SelectTree.leaf),
         ("comment", SelectTree.nested
           [("content", SelectTree.leaf),
            ("author", SelectTree.nested
              [("email", SelectTree.leaf), ("username", SelectTree.leaf),
               ("badges", SelectTree.nested
                 [("label", SelectTree.leaf),
                  ("owners", SelectTree.nested [("email", SelectTree.leaf)])])])])] =
        ["/update/post/title", "/update/post/author/username"] ++
          selectEntriesPaths "/get/post"
            [("title", SelectTree.leaf),
             ("comment", SelectTree.nested
               [("content", SelectTree.leaf),
                ("author", SelectTree.nested
                  [("email", SelectTree.leaf), ("username", SelectTree.leaf),
                   ("badges", SelectTree.nested
                     [("label", SelectTree.leaf),
                      ("owners", SelectTree.nested [("email", SelectTree.leaf)])])])])] := rfl
    rw [h3]
    simp [selectEntriesPaths]
  · have hsel : buildSelect (cleanFields specSelectionSetList) =
        [("title", SelectTree.leaf),
         ("comment", SelectTree.nested
           [("content", SelectTree.leaf),
            ("author", SelectTree.nested
              [("email", SelectTree.leaf), ("username", SelectTree.leaf),
               ("badges", SelectTree.nested
                 [("label", SelectTree.leaf),
                  ("owners", SelectTree.nested [("email", SelectTree.leaf)])])])])] := rfl
    rw [hsel]
    have h4 : getPaths "createMany" "Post" (some specCreateManyData)
        [("title", SelectTree.leaf),
         ("comment", SelectTree.nested
           [("content", SelectTree.leaf),
            ("author", SelectTree.nested
              [("email", SelectTree.leaf), ("username", SelectTree.leaf),
               ("badges", SelectTree.nested
                 [("label", SelectTree.leaf),
                  ("owners", SelectTree.nested [("email", SelectTree.leaf)])])])])] =
        ["/createmany/post/title", "/createmany/post/author/username"] ++
          selectEntriesPaths "/list/post"
            [("title", SelectTree.leaf),
             ("comment", SelectTree.nested
               [("content", SelectTree.leaf),
                ("author", SelectTree.nested
                  [("email", SelectTree.leaf), ("username", SelectTree.leaf),
                   ("badges", SelectTree.nested
                     [("label", SelectTree.leaf),
                      ("owners", SelectTree.nested [("email", SelectTree.leaf)])])])])] := rfl
    rw [h4]
    simp [selectEntriesPaths]

/-- Witness for C5: the `update` write action at an empty payload and an empty
selection for the header conjunct, the `author`-connect payload of the update
unit test for the connect conjunct, and the two unit-test vectors verbatim. -/
theorem getPaths_write_then_read_witness :
    isWriteAction "update" = true ∧
    getPaths "update" "Post" none [] =
      writePaths (toLowerStr "update") (toLowerStr "Post") (Option.getD none (.obj [])) ++
        selectEntriesPaths
          ("/" ++ (if isBatchAction "update" then "list" else "get") ++ "/" ++ toLowerStr "Post")
          [] ∧
    writeFieldPaths "update" "post" "author"
        (.obj [("connect", .obj [("username", JsVal.str "other user")])]) =
      ["/update/post/author/username"] ∧
    getPaths "update" "Post" (some specUpdateData) (buildSelect (cleanFields specSelectionSetList)) =
      ["/update/post/title", "/update/post/author/username",
       "/get/post/title", "/get/post/comment/content", "/get/post/comment/author/email",
       "/get/post/comment/author/username", "/get/post/comment/author/badges/label",
       "/get/post/comment/author/badges/owners/email"] ∧
    getPaths "createMany" "Post" (some specCreateManyData)
        (buildSelect (cleanFields specSelectionSetList)) =
      ["/createmany/post/title", "/createmany/post/author/username",
       "/list/post/title", "/list/post/comment/content", "/list/post/comment/author/email",
       "/list/post/comment/author/username", "/list/post/comment/author/badges/label",
       "/list/post/comment/author/badges/owners/email"] :=
  ⟨rfl,
   (getPaths_write_then_read "update" "Post" none [] "update" "post" "author"
     [("username", JsVal.str "other user")] rfl).1,
   (getPaths_write_then_read "update" "Post" none [] "update" "post" "author"
     [("username", JsVal.str "other user")] rfl).2.1,
   (getPaths_write_then_read "update" "Post" none [] "update" "post" "author"
     [("username", JsVal.str "other user")] rfl).2.2.1,
   (getPaths_write_then_read "update" "Post" none [] "update" "post" "author"
     [("username", JsVal.str "other user")] rfl).2.2.2⟩

/-- Modelled from the spec: the pagination-defaulting step of the argument
normalizer `getArgs` (`adapter.ts` is not among the source files): for a
read-many (`list`) action with a numeric default pagination, `skip` defaults
to 0 and `take` to the configured default; with default pagination disabled
(`false`, embedded as `none`) both are left untouched (§4.2 and the
`adapter.spec.ts` pagination tests, which default `skip` even when an explicit
`take` is given). -/
def applyPaginationDefaults (action : String) (defaultPagination : Option Int)
    (skip take : Option Int) : Option Int × Option Int :=
  if action == "list" then
    match defaultPagination with
    | some d => (some (skip.getD 0), some (take.getD d))
    | none => (skip, take)
  else (skip, take)

/-- C7: for the read-many action, with a numeric default pagination and `take`
absent the normalized arguments carry `skip = 0` and `take = default`; with an
explicit `take` that value is kept and `skip` still defaults to 0; with
default pagination configured as `false`, neither key is set by the
normalizer. -/
theorem getArgs_default_pagination (d t : Int) (skip take : Option Int) :
    applyPaginationDefaults "list" (some d) skip none = (some (skip.getD 0), some d) ∧
    applyPaginationDefaults "list" (some d) skip (some t) = (some (skip.getD 0), some t) ∧
    applyPaginationDefaults "list" none skip take = (skip, take) := by
  exact ⟨rfl, rfl, rfl⟩

/-- Modelled from the spec: the `orderBy` normalization of `getArgs`: each
ordering entry must carry exactly one `{field: direction}` pair; an entry with
more than one key is malformed and aborts the call (embedded as `none`), and
accepted directions are lowercased (§4.2 and the `adapter.spec.ts` orderBy
tests). -/
def normalizeOrderByEntry (entry : List (String × String)) : Option (String × String) :=
  match entry with
  | [(field, direction)] => some (field, toLowerStr direction)
  | _ => none

/-- Normalize a whole `orderBy` list, failing when any entry fails. -/
def normalizeOrderBy : List (List (String × String)) → Option (List (String × String))
  | [] => some []
  | entry :: rest =>
      match normalizeOrderByEntry entry, normalizeOrderBy rest with
      | some p, some ps => some (p :: ps)
      | _, _ => none

/-- C9: an `orderBy` list containing an entry with more than one
`{field: direction}` key makes argument normalization fail (the call is
aborted, no single key is silently picked), while a list of single-key entries
is accepted with every direction lowercased. -/
theorem getArgs_orderBy_single_key (orderBy : List (List (String × String)))
    (entry : List (String × String)) (singles : List (String × String))
    (he : entry ∈ orderBy) (hlen : 1 < entry.length) :
    normalizeOrderBy orderBy = none ∧
    normalizeOrderBy (singles.map fun p => [p]) =
      some (singles.map fun p => (p.1, toLowerStr p.2)) := by
  constructor
  · have hentry : normalizeOrderByEntry entry = none := by
      match entry, hlen with
      | x :: y :: rest, _ => rfl
    induction orderBy with
    | nil => cases he
    | cons e rest ih =>
      rcases List.mem_cons.mp he with h1 | h1
      · rw [normalizeOrderBy, h1.symm, hentry]
      · rw [normalizeOrderBy, ih h1]
        cases normalizeOrderByEntry e <;> rfl
  · induction singles with
    | nil => rfl
    | cons p rest ih =>
      rw [List.map_cons, normalizeOrderBy, ih]
      rfl

/-- Witness for C9 at the unit test's malformed input
`[{title: ASC, content: DESC}, {postedAt: DESC}]`, and the well-formed
single-key list `[{title: ASC}, {postedAt: DESC}]`. -/
theorem getArgs_orderBy_single_key_witness :
    [("title", "ASC"), ("content", "DESC")] ∈
      [[("title", "ASC"), ("content", "DESC")], [("postedAt", "DESC")]] ∧
    1 < ([("title", "ASC"), ("content", "DESC")] : List (String × String)).length ∧
    normalizeOrderBy [[("title", "ASC"), ("content", "DESC")], [("postedAt", "DESC")]] = none ∧
    normalizeOrderBy ([("title", "ASC"), ("postedAt", "DESC")].map fun p => [p]) =
      some [("title", "asc"), ("postedAt", "desc")] :=
  ⟨by decide, by decide,
   (getArgs_orderBy_single_key [[("title", "ASC"), ("content", "DESC")], [("postedAt", "DESC")]]
     [("title", "ASC"), ("content", "DESC")]
     [("title", "ASC"), ("postedAt", "DESC")] (by decide) (by decide)).1,
   (getArgs_orderBy_single_key [[("title", "ASC"), ("content", "DESC")], [("postedAt", "DESC")]]
     [("title", "ASC"), ("content", "DESC")]
     [("title", "ASC"), ("postedAt", "DESC")] (by decide) (by decide)).2⟩

theorem splitSegsAux_ne_nil (l : List Char) (cur : List Char) : splitSegsAux cur l ≠ [] := by
  induction l generalizing cur with
  | nil => simp [splitSegsAux]
  | cons c rest ih =>
    rw [splitSegsAux]
    by_cases h : c = '/'
    · simp [h]
    · simp only [h, if_false, reduceIte]
      exact ih _

theorem splitSlash_ne_nil (s : String) : splitSlash s ≠ [] := by
  rw [splitSlash]
  intro h
  rw [List.map_eq_nil_iff] at h
  exact splitSegsAux_ne_nil s.toList [] h

theorem nil_not_mem_cleanFields (fields : List String) : [] ∉ cleanFields fields := by
  rw [cleanFields]
  intro h
  rw [List.mem_map] at h
  obtain ⟨f2, _, h2⟩ := h
  exact splitSlash_ne_nil f2 h2

theorem mem_dedupFirstAux (k : String) (l : List String) :
    ∀ seen, k ∈ dedupFirstAux seen l ↔ (k ∈ l ∧ k ∉ seen) := by
  induction l with
  | nil => simp [dedupFirstAux]
  | cons k' rest ih =>
    intro seen
    rw [dedupFirstAux]
    by_cases h : k' ∈ seen
    · rw [if_pos h, ih seen, List.mem_cons]
      constructor
      · exact fun hc => ⟨Or.inr hc.1, hc.2⟩
      · rintro ⟨h1 | h1, h2⟩
        · exact absurd (h1 ▸ h) h2
        · exact ⟨h1, h2⟩
    · rw [if_neg h, List.mem_cons, ih (k' :: seen)]
      constructor
      · rintro (h1 | ⟨h1, h2⟩)
        · subst h1
          exact ⟨List.mem_cons_self _ _, h⟩
        · refine ⟨List.mem_cons_of_mem _ h1, fun hc => h2 (List.mem_cons_of_mem _ hc)⟩
      · rintro ⟨h1, h2⟩
        by_cases hkk : k = k'
        · exact Or.inl hkk
        · rcases List.mem_cons.mp h1 with h3 | h3
          · exact absurd h3 hkk
          · refine Or.inr ⟨h3, fun hc => ?_⟩
            rcases List.mem_cons.mp hc with h4 | h4
            · exact hkk h4
            · exact h2 h4

theorem mem_childrenOf (k : String) (ps : List (List String)) (p' : List String) :
    p' ∈ childrenOf k ps ↔ ((k :: p') ∈ ps ∧ p' ≠ []) := by
  rw [childrenOf, List.mem_filterMap]
  constructor
  · rintro ⟨a, ha, hfa⟩
    cases a with
    | nil => exact absurd hfa (by simp)
    | cons k' rest =>
      dsimp only at hfa
      split at hfa
      · rename_i hcond
        rw [Option.some.injEq] at hfa
        subst hfa
        exact ⟨hcond.1 ▸ ha, hcond.2⟩
      · exact absurd hfa (by simp)
  · rintro ⟨h1, h2⟩
    refine ⟨k :: p', h1, ?_⟩
    dsimp only
    rw [if_pos ⟨rfl, h2⟩]

theorem mem_flattenEntries (p : List String) (entries : List (String × SelectTree)) :
    p ∈ flattenEntries entries ↔
      ((∃ k, (k, SelectTree.leaf) ∈ entries ∧ p = [k]) ∨
       (∃ k es, (k, SelectTree.nested es) ∈ entries ∧
         ∃ p', p = k :: p' ∧ p' ∈ flattenEntries es)) := by
  induction entries with
  | nil => simp [flattenEntries]
  | cons e rest ih =>
    obtain ⟨k0, t0⟩ := e
    cases t0 with
    | leaf =>
      have e1 : flattenEntries ((k0, SelectTree.leaf) :: rest) = [k0] :: flattenEntries rest := by
        simp [flattenEntries]
      rw [e1, List.mem_cons, ih]
      constructor
      · rintro (h | (⟨k, hk, hp⟩ | ⟨k, es, hk, hrest⟩))
        · exact Or.inl ⟨k0, List.mem_cons_self _ _, h⟩
        · exact Or.inl ⟨k, List.mem_cons_of_mem _ hk, hp⟩
        · exact Or.inr ⟨k, es, List.mem_cons_of_mem _ hk, hrest⟩
      · rintro (⟨k, hk, hp⟩ | ⟨k, es, hk, hrest⟩)
        · rcases List.mem_cons.mp hk with h1 | h1
          · rw [Prod.mk.injEq] at h1
            exact Or.inl (h1.1 ▸ hp)
          · exact Or.inr (Or.inl ⟨k, h1, hp⟩)
        · rcases List.mem_cons.mp hk with h1 | h1
          · exact absurd h1 (by simp)
          · exact Or.inr (Or.inr ⟨k, es, h1, hrest⟩)
    | nested es0 =>
      have e2 : flattenEntries ((k0, SelectTree.nested es0) :: rest) =
          (flattenEntries es0).map (fun q => k0 :: q) ++ flattenEntries rest := by
        simp [flattenEntries]
      rw [e2, List.mem_append, List.mem_map, ih]
      constructor
      · rintro (⟨p', hp', hmap⟩ | (⟨k, hk, hp⟩ | ⟨k, es, hk, hrest⟩))
        · exact Or.inr ⟨k0, es0, List.mem_cons_self _ _, p', hmap.symm, hp'⟩
        · exact Or.inl ⟨k, List.mem_cons_of_mem _ hk, hp⟩
        · exact Or.inr ⟨k, es, List.mem_cons_of_mem _ hk, hrest⟩
      · rintro (⟨k, hk, hp⟩ | ⟨k, es, hk, p', hp, hp'⟩)
        · rcases List.mem_cons.mp hk with h1 | h1
          · exact absurd h1 (by simp)
          · exact Or.inr (Or.inl ⟨k, h1, hp⟩)
        · rcases List.mem_cons.mp hk with h1 | h1
          · rw [Prod.mk.injEq] at h1
            obtain ⟨hk0, hes⟩ := h1
            rw [SelectTree.nested.injEq] at hes
            exact Or.inl ⟨p', hes ▸ hp', (hk0 ▸ hp).symm⟩
          · exact Or.inr (Or.inr ⟨k, es, h1, p', hp, hp'⟩)

/-- A leaf entry of a requested-fields list: an entry that no other entry of
the list properly extends (ancestors of a requested leaf are included
automatically by the transport and are not leaves themselves). -/
def isLeafEntry (ps : List (List String)) (p : List String) : Prop :=
  p ∈ ps ∧ ∀ q ∈ ps, p <+: q → p = q

theorem mem_keys_iff (ps : List (List String)) (k : String) :
    k ∈ dedupFirstAux [] (ps.filterMap List.head?) ↔ ∃ q ∈ ps, q.head? = some k := by
  rw [mem_dedupFirstAux]
  simp [List.mem_filterMap]

theorem leaf_mem_buildSelectF_map (fuel : Nat) (ps : List (List String)) (k : String) :
    ((k, SelectTree.leaf) ∈ (dedupFirstAux [] (ps.filterMap List.head?)).map (fun k2 =>
        match childrenOf k2 ps with
        | [] => (k2, SelectTree.leaf)
        | c :: cs => (k2, SelectTree.nested (buildSelectF fuel (c :: cs))))) ↔
      (k ∈ dedupFirstAux [] (ps.filterMap List.head?) ∧ childrenOf k ps = []) := by
  rw [List.mem_map]
  constructor
  · rintro ⟨k2, hk2, hf⟩
    cases hc : childrenOf k2 ps with
    | nil =>
      simp only [hc] at hf
      rw [Prod.mk.injEq] at hf
      exact ⟨hf.1 ▸ hk2, hf.1 ▸ hc⟩
    | cons c cs =>
      simp only [hc] at hf
      rw [Prod.mk.injEq] at hf
      exact absurd hf.2 (by simp)
  · rintro ⟨h1, h2⟩
    refine ⟨k, h1, ?_⟩
    simp only [h2]

theorem nested_mem_buildSelectF_map (fuel : Nat) (ps : List (List String)) (k : String)
    (es : List (String × SelectTree)) :
    ((k, SelectTree.nested es) ∈ (dedupFirstAux [] (ps.filterMap List.head?)).map (fun k2 =>
        match childrenOf k2 ps with
        | [] => (k2, SelectTree.leaf)
        | c :: cs => (k2, SelectTree.nested (buildSelectF fuel (c :: cs))))) ↔
      (k ∈ dedupFirstAux [] (ps.filterMap List.head?) ∧
        ∃ c cs, childrenOf k ps = c :: cs ∧ es = buildSelectF fuel (c :: cs)) := by
  rw [List.mem_map]
  constructor
  · rintro ⟨k2, hk2, hf⟩
    cases hc : childrenOf k2 ps with
    | nil =>
      simp only [hc] at hf
      rw [Prod.mk.injEq] at hf
      exact absurd hf.2 (by simp)
    | cons c cs =>
      simp only [hc] at hf
      rw [Prod.mk.injEq, SelectTree.nested.injEq] at hf
      exact ⟨hf.1 ▸ hk2, c, cs, hf.1 ▸ hc, hf.2.symm⟩
  · rintro ⟨h1, c, cs, h2, h3⟩
    refine ⟨k, h1, ?_⟩
    simp only [h2, h3]

theorem mem_flatten_buildSelectF (fuel : Nat) :
    ∀ ps : List (List String), sumLen ps < fuel → [] ∉ ps →
      ∀ p : List String,
        (p ∈ flattenEntries (buildSelectF fuel ps) ↔ isLeafEntry ps p) := by
  induction fuel with
  | zero =>
    intro ps h
    exact absurd h (Nat.not_lt_zero _)
  | succ fuel ih =>
    intro ps hfuel hnil p
    simp only [buildSelectF]
    rw [mem_flattenEntries]
    constructor
    · rintro (⟨k, hk, hp⟩ | ⟨k, es, hk, p', hp, hp'⟩)
      · rw [leaf_mem_buildSelectF_map] at hk
        obtain ⟨hkk, hch⟩ := hk
        obtain ⟨q, hq, hqh⟩ := (mem_keys_iff ps k).mp hkk
        cases q with
        | nil => exact absurd hqh (by simp)
        | cons a rest =>
          rw [List.head?_cons, Option.some.injEq] at hqh
          subst hqh
          cases hrest : rest with
          | cons r rs =>
            exfalso
            have hmem : rest ∈ childrenOf a ps :=
              (mem_childrenOf a ps rest).mpr ⟨hq, by rw [hrest]; simp⟩
            rw [hch] at hmem
            exact absurd hmem (List.not_mem_nil _)
          | nil =>
            subst hrest
            subst hp
            refine ⟨hq, ?_⟩
            intro q2 hq2 hpre
            cases q2 with
            | nil =>
              have := List.prefix_nil.mp hpre
              exact absurd this (by simp)
            | cons b q'' =>
              rw [List.cons_prefix_cons] at hpre
              obtain ⟨hbk, _⟩ := hpre
              subst hbk
              by_contra hne
              have hq''ne : q'' ≠ [] := by
                intro h0
                rw [h0] at hne
                exact hne rfl
              have hmem : q'' ∈ childrenOf a ps := (mem_childrenOf _ _ _).mpr ⟨hq2, hq''ne⟩
              rw [hch] at hmem
              exact absurd hmem (List.not_mem_nil _)
      · rw [nested_mem_buildSelectF_map] at hk
        obtain ⟨hkk, c, cs, hch, hes⟩ := hk
        subst hes
        have hchsub : sumLen (c :: cs) < fuel := by
          have h1 := sumLen_childrenOf k ps
          rw [hch] at h1
          simp only [List.length_cons] at h1
          omega
        have hchnil : [] ∉ (c :: cs) := by
          intro h0
          have := (mem_childrenOf k ps []).mp (hch ▸ h0)
          exact this.2 rfl
        rw [ih (c :: cs) hchsub hchnil p'] at hp'
        obtain ⟨hpmem, hpmax⟩ := hp'
        have hmem : (k :: p') ∈ ps ∧ p' ≠ [] := (mem_childrenOf k ps p').mp (hch ▸ hpmem)
        subst hp
        refine ⟨hmem.1, ?_⟩
        intro q hq hpre
        cases q with
        | nil =>
          have := List.prefix_nil.mp hpre
          exact absurd this (by simp)
        | cons b q'' =>
          rw [List.cons_prefix_cons] at hpre
          obtain ⟨hkb, hpre'⟩ := hpre
          subst hkb
          have hq''ne : q'' ≠ [] := by
            intro h0
            rw [h0] at hpre'
            exact hmem.2 (List.prefix_nil.mp hpre')
          have hmem2 : q'' ∈ childrenOf k ps := (mem_childrenOf _ _ _).mpr ⟨hq, hq''ne⟩
          rw [hch] at hmem2
          rw [hpmax q'' hmem2 hpre']
    · rintro ⟨hpmem, hpmax⟩
      cases p with
      | nil => exact absurd hpmem hnil
      | cons k p' =>
        have hkk : k ∈ dedupFirstAux [] (ps.filterMap List.head?) :=
          (mem_keys_iff ps k).mpr ⟨k :: p', hpmem, rfl⟩
        cases hch : childrenOf k ps with
        | nil =>
          have hp' : p' = [] := by
            by_contra hne
            have hmem : p' ∈ childrenOf k ps := (mem_childrenOf _ _ _).mpr ⟨hpmem, hne⟩
            rw [hch] at hmem
            exact absurd hmem (List.not_mem_nil _)
          subst hp'
          exact Or.inl ⟨k, (leaf_mem_buildSelectF_map fuel ps k).mpr ⟨hkk, hch⟩, rfl⟩
        | cons c cs =>
          have hcmem : (k :: c) ∈ ps ∧ c ≠ [] :=
            (mem_childrenOf k ps c).mp (by rw [hch]; exact List.mem_cons_self _ _)
          have hp'ne : p' ≠ [] := by
            intro h0
            subst h0
            have hpre : [k] <+: (k :: c) := by
              rw [List.cons_prefix_cons]
              exact ⟨rfl, List.nil_prefix⟩
            have heq := hpmax (k :: c) hcmem.1 hpre
            rw [List.cons.injEq] at heq
            exact hcmem.2 heq.2.symm
          have hpc : p' ∈ childrenOf k ps := (mem_childrenOf _ _ _).mpr ⟨hpmem, hp'ne⟩
          have hchsub : sumLen (c :: cs) < fuel := by
            have h1 := sumLen_childrenOf k ps
            rw [hch] at h1
            simp only [List.length_cons] at h1
            omega
          have hchnil : [] ∉ (c :: cs) := by
            intro h0
            have := (mem_childrenOf k ps []).mp (hch ▸ h0)
            exact this.2 rfl
          refine Or.inr ⟨k, buildSelectF fuel (c :: cs),
            (nested_mem_buildSelectF_map fuel ps k _).mpr ⟨hkk, c, cs, hch, rfl⟩, p', rfl, ?_⟩
          rw [ih (c :: cs) hchsub hchnil p']
          refine ⟨hch ▸ hpc, ?_⟩
          intro q' hq' hpre'
          have hqmem : (k :: q') ∈ ps ∧ q' ≠ [] := (mem_childrenOf k ps q').mp (hch ▸ hq')
          have hpre : (k :: p') <+: (k :: q') := by
            rw [List.cons_prefix_cons]
            exact ⟨rfl, hpre'⟩
          have heq := hpmax (k :: q') hqmem.1 hpre
          rw [List.cons.injEq] at heq
          exact heq.2

theorem pair_mem_buildSelectF (fuel : Nat) (ps : List (List String)) (k : String) :
    (∃ t, (k, t) ∈ buildSelectF (fuel + 1) ps) ↔ ∃ q ∈ ps, q.head? = some k := by
  simp only [buildSelectF]
  constructor
  · rintro ⟨t, ht⟩
    rw [List.mem_map] at ht
    obtain ⟨k2, hk2, hf⟩ := ht
    have hfst : k2 = k := by
      cases hc : childrenOf k2 ps with
      | nil =>
        simp only [hc] at hf
        rw [Prod.mk.injEq] at hf
        exact hf.1
      | cons c cs =>
        simp only [hc] at hf
        rw [Prod.mk.injEq] at hf
        exact hf.1
    exact (mem_keys_iff ps k).mp (hfst ▸ hk2)
  · intro h
    have hk : k ∈ dedupFirstAux [] (ps.filterMap List.head?) := (mem_keys_iff ps k).mpr h
    cases hc : childrenOf k ps with
    | nil => exact ⟨SelectTree.leaf, (leaf_mem_buildSelectF_map fuel ps k).mpr ⟨hk, hc⟩⟩
    | cons c cs =>
      exact ⟨SelectTree.nested (buildSelectF fuel (c :: cs)),
        (nested_mem_buildSelectF_map fuel ps k _).mpr ⟨hk, c, cs, hc, rfl⟩⟩

/-- C6: for every requested-fields list (the `__typename` type-name sentinel
being discarded before use), the produced select tree contains a key exactly
when that key is a first-level segment of some requested path, and flattening
the produced select tree back to its leaf paths reproduces exactly the leaf
entries of the input — the entries no other entry properly extends — so the
nested trees mirror the path structure losslessly. -/
theorem getArgs_select_roundtrip (fields : List String) (k : String) (p : List String) :
    ((∃ t, (k, t) ∈ buildSelect (cleanFields fields)) ↔
      ∃ q ∈ cleanFields fields, q.head? = some k) ∧
    (p ∈ flattenEntries (buildSelect (cleanFields fields)) ↔
      isLeafEntry (cleanFields fields) p) := by
  constructor
  · rw [buildSelect]
    exact pair_mem_buildSelectF (sumLen (cleanFields fields)) (cleanFields fields) k
  · rw [buildSelect]
    exact mem_flatten_buildSelectF (sumLen (cleanFields fields) + 1) (cleanFields fields)
      (Nat.lt_succ_self _) (nil_not_mem_cleanFields fields) p

/-! Model validation against the remaining `adapter.spec.ts` vectors. -/

example :
    buildSelect (cleanFields ["title", "createdAt", "status"]) =
      [("title", SelectTree.leaf), ("createdAt", SelectTree.leaf), ("status", SelectTree.leaf)] :=
  rfl

example :
    buildSelect (cleanFields
        ["title", "createdAt", "comments", "comments/post", "comments/author",
         "comments/author/email"]) =
      [("title", SelectTree.leaf), ("createdAt", SelectTree.leaf),
       ("comments", SelectTree.nested
         [("post", SelectTree.leaf),
          ("author", SelectTree.nested [("email", SelectTree.leaf)])])] :=
  rfl

example :
    (buildSelect (cleanFields
        ["__typename", "title", "description", "author", "author/username", "author/email",
         "author/comments", "author/comments/text", "author/comments/likes",
         "author/comments/likes/user", "author/comments/likes/user/username"])).map Prod.fst =
      ["title", "description", "author"] :=
  rfl

example : normalizeOrderBy [[("title", "ASC")], [("postedAt", "DESC")]] =
    some [("title", "asc"), ("postedAt", "desc")] :=
  rfl

example : applyPaginationDefaults "count" (some 50) none none = (none, none) := rfl

example : micromatchIsMatch "/get/post/title" "/get/post/*" = true := rfl

example : micromatchIsMatch "/get/post/comment/content" "/get/post/*" = false := rfl

example : micromatchIsMatch "/get/post/comment/content" "/get/post/**" = true := rfl

example : getDepth ["/get/post/title", "/get/post/comment/content"] = 2 := rfl

end PrismaAppSync
